import Mathlib

/-!
Shallow embedding of the group-assignment engine of `main.py` (FastAPI app
"Gruppenzuteilung").  Python integers are embedded as `Int`; Python's floor
division `//` and modulus `%` are `Int.fdiv` and `Int.fmod`; code that can
raise an exception is embedded with `Option`/`Except`, and the SQLite store
is embedded as an explicit state value (`DB`) threaded through the
operations, with `ROLLBACK` rendered as returning the unchanged state.
-/

/-- `compute_capacities` from `main.py`:
`base = total // g`, `rest = total % g`, `caps = [base] * g`, then
`caps[i] += 1` for `i in range(rest)`.  For `g = 0` Python raises
`ZeroDivisionError`, embedded as `none`.  For `g < 0`, `[base] * g` is the
empty list and `rest = total % g ≤ 0`, so `range(rest)` is empty and the
empty list is returned; `List.range g.toNat` renders both the `g > 0` and
the `g < 0` replication count.  For `0 < g` we have `0 ≤ rest < g`, so the
increment loop touches exactly the first `rest` positions, rendered by the
pointwise `if (i : Int) < rest`. -/
def compute_capacities (total g : Int) : Option (List Int) :=
  if g = 0 then none
  else
    some ((List.range g.toNat).map fun (i : Nat) =>
      if (i : Int) < total.fmod g then total.fdiv g + 1 else total.fdiv g)

lemma range_map_if_sum (base rest : Int) (hr : 0 ≤ rest) (n : Nat) :
    ((List.range n).map fun (i : Nat) => if (i : Int) < rest then base + 1 else base).sum
      = n * base + min rest n := by
  induction n with
  | zero =>
    simp [min_eq_right hr]
  | succ m ih =>
    rw [List.range_succ, List.map_append, List.sum_append, ih]
    simp only [List.map_cons, List.map_nil, List.sum_cons, List.sum_nil]
    rcases lt_or_le (m : Int) rest with h | h
    · rw [if_pos h, min_eq_right (by omega : (m : Int) ≤ rest),
        min_eq_right (by push_cast; omega : ((m + 1 : Nat) : Int) ≤ rest)]
      push_cast
      ring
    · rw [if_neg (not_lt.mpr h), min_eq_left h,
        min_eq_left (by push_cast; omega : rest ≤ ((m + 1 : Nat) : Int))]
      push_cast
      ring

/-- Entries of a computed capacity vector are `base` or `base + 1`. -/
lemma compute_capacities_mem (total g : Int) (caps : List Int)
    (h : compute_capacities total g = some caps) :
    ∀ x ∈ caps, x = total.fdiv g ∨ x = total.fdiv g + 1 := by
  intro x hx
  by_cases hg : g = 0
  · simp [compute_capacities, hg] at h
  · simp only [compute_capacities, if_neg hg, Option.some.injEq] at h
    subst h
    obtain ⟨i, _, hi⟩ := List.mem_map.mp hx
    by_cases hlt : (i : Int) < total.fmod g
    · right; rw [← hi, if_pos hlt]
    · left; rw [← hi, if_neg hlt]

lemma compute_capacities_length (total g : Int) (caps : List Int)
    (h : compute_capacities total g = some caps) : caps.length = g.toNat := by
  by_cases hg : g = 0
  · simp [compute_capacities, hg] at h
  · simp only [compute_capacities, if_neg hg, Option.some.injEq] at h
    subst h
    simp

/-- Capacity skew: any two entries of a capacity vector differ by at most 1. -/
lemma compute_capacities_skew (total g : Int) (caps : List Int)
    (h : compute_capacities total g = some caps) :
    ∀ x ∈ caps, ∀ y ∈ caps, x - y ≤ 1 := by
  intro x hx y hy
  rcases compute_capacities_mem total g caps h x hx with h1 | h1 <;>
    rcases compute_capacities_mem total g caps h y hy with h2 | h2 <;>
      omega

/-- Capacity sum: for `total ≥ 1`, `g ≥ 1` the entries sum to `total`. -/
lemma compute_capacities_sum (total g : Int) (hg : 1 ≤ g) (caps : List Int)
    (h : compute_capacities total g = some caps) : caps.sum = total := by
  have hg0 : g ≠ 0 := by omega
  have hgnn : (0 : Int) ≤ g := by omega
  simp only [compute_capacities, if_neg hg0, Option.some.injEq] at h
  subst h
  rw [Int.fmod_eq_emod _ hgnn]
  rw [range_map_if_sum _ _ (Int.emod_nonneg total hg0)]
  have hlt : total % g < g := Int.emod_lt_of_pos total (by omega)
  have hcast : ((g.toNat : Nat) : Int) = g := Int.toNat_of_nonneg hgnn
  rw [min_eq_left (by omega), hcast, Int.fdiv_eq_ediv _ hgnn]
  have := Int.ediv_add_emod total g
  omega

/-- Pointwise description: entry `i` is `total / g + 1` for `i < total % g`,
else `total / g` (Euclidean `/`, `%`, which agree with Python's for `g > 0`). -/
lemma compute_capacities_getD (total g : Int) (hg : 1 ≤ g) (caps : List Int)
    (h : compute_capacities total g = some caps) :
    ∀ i, i < g.toNat →
      caps.getD i 0 = if (i : Int) < total % g then total / g + 1 else total / g := by
  have hg0 : g ≠ 0 := by omega
  have hgnn : (0 : Int) ≤ g := by omega
  simp only [compute_capacities, if_neg hg0, Option.some.injEq] at h
  subst h
  intro i hi
  have hlen : i < ((List.range g.toNat).map fun (i : Nat) =>
      if (i : Int) < total.fmod g then total.fdiv g + 1 else total.fdiv g).length := by
    simpa using hi
  rw [List.getD_eq_getElem _ _ hlen, List.getElem_map, List.getElem_range,
    Int.fmod_eq_emod _ hgnn, Int.fdiv_eq_ediv _ hgnn]

/-- C1: for `total ≥ 1` and `g ≥ 1`, `compute_capacities` returns the vector
whose first `total % g` entries are `total / g + 1` and whose remaining
entries are `total / g`; the entries sum to `total` and any two entries
differ by at most 1. -/
theorem c1_compute_capacities_spec (total g : Int) (ht : 1 ≤ total) (hg : 1 ≤ g) :
    ∃ caps, compute_capacities total g = some caps ∧
      caps.length = g.toNat ∧
      (∀ i, i < g.toNat →
        caps.getD i 0 = if (i : Int) < total % g then total / g + 1 else total / g) ∧
      caps.sum = total ∧
      (∀ x ∈ caps, ∀ y ∈ caps, x - y ≤ 1) := by
  have hg0 : g ≠ 0 := by omega
  refine ⟨(List.range g.toNat).map fun (i : Nat) =>
      if (i : Int) < total.fmod g then total.fdiv g + 1 else total.fdiv g,
    by simp [compute_capacities, hg0], by simp, ?_, ?_, ?_⟩
  · exact compute_capacities_getD total g hg _ (by simp [compute_capacities, hg0])
  · exact compute_capacities_sum total g hg _ (by simp [compute_capacities, hg0])
  · exact compute_capacities_skew total g _ (by simp [compute_capacities, hg0])

/-- Witness for C1 at `total = 1000`, `g = 7`. -/
theorem c1_compute_capacities_spec_witness :
    ∃ caps, compute_capacities 1000 7 = some caps ∧
      caps.length = (7 : Int).toNat ∧
      (∀ i, i < (7 : Int).toNat →
        caps.getD i 0 = if (i : Int) < 1000 % 7 then 1000 / 7 + 1 else 1000 / 7) ∧
      caps.sum = 1000 ∧
      (∀ x ∈ caps, ∀ y ∈ caps, x - y ≤ 1) :=
  c1_compute_capacities_spec 1000 7 (by decide) (by decide)

/-- C5 counterexample: with `total = 0 < 1` and `g = 2`, `compute_capacities`
does not fail; it returns the capacity vector `[0, 0]`.  The claimed
`InvalidConfiguration` failure for invalid inputs does not happen inside
`compute_capacities`. -/
theorem c5_counterexample : compute_capacities 0 2 = some [0, 0] := by decide

/-- C5 amended: `compute_capacities` performs no input validation.  For every
`g ≥ 1` it returns a capacity vector of length `g`, whatever `total` is
(also `total < 1`); its only failure is the division by zero at `g = 0`. -/
theorem c5_amended_no_validation :
    (∀ total g : Int, 1 ≤ g →
      ∃ caps, compute_capacities total g = some caps ∧ caps.length = g.toNat) ∧
    (∀ total : Int, compute_capacities total 0 = none) := by
  constructor
  · intro total g hg
    have hg0 : g ≠ 0 := by omega
    refine ⟨(List.range g.toNat).map fun (i : Nat) =>
        if (i : Int) < total.fmod g then total.fdiv g + 1 else total.fdiv g,
      by simp [compute_capacities, hg0], ?_⟩
    exact compute_capacities_length total g _ (by simp [compute_capacities, hg0])
  · intro total
    simp [compute_capacities]

/-- Witness for amended C5 at `total = 0`, `g = 2` and at `g = 0`. -/
theorem c5_amended_no_validation_witness :
    (∃ caps, compute_capacities 0 2 = some caps ∧ caps.length = (2 : Int).toNat) ∧
    compute_capacities 3 0 = none :=
  ⟨c5_amended_no_validation.1 0 2 (by decide), c5_amended_no_validation.2 3⟩

/-- The local variable `remaining` of `choose_group_fair` in `main.py`:
`remaining = [caps[i] - counts[i] for i in range(len(caps))]`. -/
def remaining_of (counts caps : List Int) : List Int :=
  (List.range caps.length).map fun (i : Nat) => caps.getD i 0 - counts.getD i 0

/-- The local variable `kandidaten` of `choose_group_fair` in `main.py`:
`kandidaten = [i for i, r in enumerate(remaining) if r == best]`. -/
def kandidaten_of (counts caps : List Int) (best : Int) : List Nat :=
  ((remaining_of counts caps).enum.filter fun p => p.2 == best).map fun p => p.1

/-- `choose_group_fair` from `main.py`: `best = max(remaining)`, then
`secrets.choice(kandidaten) + 1`.  The uniformly random draw of
`secrets.choice` is embedded by the extra parameter `k`, picking candidate
`k % len(kandidaten)`; quantifying over `k` ranges over every possible
draw.  Python raises `IndexError` when `counts` is shorter than `caps`
(the list comprehension indexes `counts[i]` for `i < len(caps)`) and
`ValueError` (`max` of an empty sequence) when `caps` is empty; both are
embedded as `none`. -/
def choose_group_fair (k : Nat) (counts caps : List Int) : Option Int :=
  if caps.length ≤ counts.length then
    match (remaining_of counts caps).max? with
    | none => none
    | some best =>
      match (kandidaten_of counts caps best)[k % (kandidaten_of counts caps best).length]? with
      | none => none
      | some i => some ((i : Int) + 1)
  else none

lemma int_max?_spec (l : List Int) (b : Int) (h : l.max? = some b) :
    b ∈ l ∧ ∀ x ∈ l, x ≤ b := by
  have hiff := @List.max?_eq_some_iff Int b _ _ ⟨fun h1 h2 => le_antisymm h1 h2⟩
    (fun a => le_refl a) (fun a b => max_choice a b) (fun a b c => max_le_iff) l
  exact hiff.mp h

lemma remaining_of_length (counts caps : List Int) :
    (remaining_of counts caps).length = caps.length := by
  simp [remaining_of]

lemma remaining_of_getElem (counts caps : List Int) (i : Nat)
    (h : i < (remaining_of counts caps).length) :
    (remaining_of counts caps)[i] = caps.getD i 0 - counts.getD i 0 := by
  simp [remaining_of]

lemma mem_kandidaten_of (counts caps : List Int) (best : Int) (j : Nat) :
    j ∈ kandidaten_of counts caps best ↔
      ∃ h : j < (remaining_of counts caps).length,
        (remaining_of counts caps)[j] = best := by
  constructor
  · intro hj
    obtain ⟨p, hpmem, hpj⟩ := List.mem_map.mp hj
    obtain ⟨hpe, hpb⟩ := List.mem_filter.mp hpmem
    rw [List.mem_enum_iff_getElem?] at hpe
    obtain ⟨hlt, hval⟩ := List.getElem?_eq_some.mp hpe
    subst hpj
    exact ⟨hlt, by rw [hval]; exact beq_iff_eq.mp hpb⟩
  · rintro ⟨hlt, hval⟩
    refine List.mem_map.mpr ⟨(j, best), List.mem_filter.mpr ⟨?_, by simp⟩, rfl⟩
    rw [List.mem_enum_iff_getElem?, List.getElem?_eq_getElem hlt, hval]

/-- Success characterization of `choose_group_fair`: when `counts` is at
least as long as `caps` and `caps` is non-empty, the result is
`some (idx + 1)` for a candidate index `idx` maximizing `caps[i] - counts[i]`. -/
lemma choose_group_fair_spec (k : Nat) (counts caps : List Int)
    (hlen : caps.length ≤ counts.length) (hne : caps ≠ []) :
    ∃ idx : Nat, choose_group_fair k counts caps = some ((idx : Int) + 1) ∧
      idx < caps.length ∧
      ∀ i, i < caps.length →
        caps.getD i 0 - counts.getD i 0 ≤ caps.getD idx 0 - counts.getD idx 0 := by
  have hremne : remaining_of counts caps ≠ [] := by
    intro h0
    exact hne (List.eq_nil_of_length_eq_zero
      (by rw [← remaining_of_length counts caps, h0]; rfl))
  obtain ⟨best, hbest⟩ : ∃ b, (remaining_of counts caps).max? = some b := by
    cases hm : (remaining_of counts caps).max? with
    | none => exact absurd (List.max?_eq_none_iff.mp hm) hremne
    | some b => exact ⟨b, rfl⟩
  obtain ⟨hbmem, hbub⟩ := int_max?_spec _ _ hbest
  have hkne : kandidaten_of counts caps best ≠ [] := by
    obtain ⟨j, hj, hjv⟩ := List.mem_iff_getElem.mp hbmem
    intro h0
    rw [← List.mem_nil_iff j, ← h0]
    exact (mem_kandidaten_of counts caps best j).mpr ⟨hj, hjv⟩
  have hkpos : 0 < (kandidaten_of counts caps best).length :=
    List.length_pos.mpr hkne
  have hm : k % (kandidaten_of counts caps best).length <
      (kandidaten_of counts caps best).length := Nat.mod_lt _ hkpos
  refine ⟨(kandidaten_of counts caps best)[k % (kandidaten_of counts caps best).length],
    ?_, ?_, ?_⟩
  · simp only [choose_group_fair, if_pos hlen, hbest, List.getElem?_eq_getElem hm]
  · obtain ⟨hlt, _⟩ := (mem_kandidaten_of counts caps best _).mp (List.getElem_mem hm)
    rwa [remaining_of_length] at hlt
  · obtain ⟨hlt, hval⟩ := (mem_kandidaten_of counts caps best _).mp (List.getElem_mem hm)
    intro i hi
    have hi' : i < (remaining_of counts caps).length := by
      rwa [remaining_of_length]
    have h1 : caps.getD i 0 - counts.getD i 0 ≤ best := by
      rw [← remaining_of_getElem counts caps i hi']
      exact hbub _ (List.getElem_mem hi')
    have h2 := remaining_of_getElem counts caps _ hlt
    rw [hval] at h2
    omega

/-- C2: for equal-length non-empty `counts` and `caps` and every draw `k`,
`choose_group_fair` returns a 1-based group number `j` with
`1 ≤ j ≤ length`, whose remaining capacity `caps[j-1] - counts[j-1]` is the
maximum of `caps[i] - counts[i]` over all `i` — also when that maximum is
negative (every group over capacity). -/
theorem c2_choose_group_fair_max_remaining (k : Nat) (counts caps : List Int)
    (hlen : counts.length = caps.length) (hne : caps ≠ []) :
    ∃ j : Int, choose_group_fair k counts caps = some j ∧
      1 ≤ j ∧ j ≤ (caps.length : Int) ∧
      ∀ i, i < caps.length →
        caps.getD i 0 - counts.getD i 0 ≤
          caps.getD (j - 1).toNat 0 - counts.getD (j - 1).toNat 0 := by
  obtain ⟨idx, hres, hidx, hmax⟩ :=
    choose_group_fair_spec k counts caps (le_of_eq hlen.symm) hne
  refine ⟨(idx : Int) + 1, hres, by omega, by omega, ?_⟩
  have hback : ((idx : Int) + 1 - 1).toNat = idx := by omega
  rw [hback]
  exact hmax

/-- Witness for C2 with every group over capacity: `counts = [3, 3]`,
`caps = [2, 2]` (both remainings are `-1`), draw `k = 0`. -/
theorem c2_choose_group_fair_max_remaining_witness :
    ([3, 3] : List Int).length = ([2, 2] : List Int).length ∧
    ([2, 2] : List Int) ≠ [] ∧
    ∃ j : Int, choose_group_fair 0 [3, 3] [2, 2] = some j ∧
      1 ≤ j ∧ j ≤ (([2, 2] : List Int).length : Int) ∧
      ∀ i, i < ([2, 2] : List Int).length →
        ([2, 2] : List Int).getD i 0 - ([3, 3] : List Int).getD i 0 ≤
          ([2, 2] : List Int).getD (j - 1).toNat 0 -
            ([3, 3] : List Int).getD (j - 1).toNat 0 :=
  ⟨by decide, by decide,
    c2_choose_group_fair_max_remaining 0 [3, 3] [2, 2] (by decide) (by decide)⟩

/-- One row of the `assignments` table of `main.py`:
`token TEXT PRIMARY KEY, grp INTEGER NOT NULL, created_at TEXT NOT NULL`. -/
structure AssignmentRow where
  token : String
  grp : Int
  created_at : String
deriving DecidableEq

/-- The SQLite database of `main.py`: the `assignments` table in insertion
order and the `settings` table (`key TEXT PRIMARY KEY, value INTEGER`). -/
structure DB where
  assignments : List AssignmentRow
  settings : List (String × Int)
deriving DecidableEq

/-- `get_setting` from `main.py`: `SELECT value FROM settings WHERE key=?`;
the stored value, or `0` when the key is absent (`if row else 0`). -/
def get_setting (db : DB) (key : String) : Int :=
  match db.settings.find? fun p => p.1 == key with
  | some p => p.2
  | none => 0

/-- `set_setting` from `main.py`: `INSERT INTO settings ... ON CONFLICT(key)
DO UPDATE SET value=excluded.value` — an upsert: replace the row of `key`
when present, else append it.  Commits at once; only the `settings` table
is touched. -/
def set_setting (db : DB) (key : String) (value : Int) : DB :=
  if db.settings.any fun p => p.1 == key then
    { db with settings := db.settings.map fun p => if p.1 == key then (key, value) else p }
  else
    { db with settings := db.settings ++ [(key, value)] }

/-- `get_counts` from `main.py`: `SELECT grp, COUNT(*) FROM assignments
GROUP BY grp` written into `counts = [0] * g` at `counts[grp - 1] = n`,
keeping only rows with `1 <= grp <= g`.  Entry `i` is therefore the number
of assignment rows with `grp = i + 1`; rows whose `grp` lies outside
`[1, g]` contribute to no entry. -/
def get_counts (db : DB) (g : Int) : List Int :=
  (List.range g.toNat).map fun (i : Nat) =>
    ((db.assignments.filter fun r => r.grp == (i : Int) + 1).length : Int)

/-- `assign_group` from `main.py`.  The `BEGIN IMMEDIATE` transaction with
`ROLLBACK` on any exception is embedded by returning the post-transaction
state next to the result: every error path returns the pre-transaction
state `db` unchanged.  `now` stands for `datetime.utcnow().isoformat(...)`;
`k` is the draw parameter fed to `choose_group_fair`'s random choice.  The
error strings of the unreachable `none` branches of `compute_capacities`
and `choose_group_fair` name the Python exception that would propagate. -/
def assign_group (k : Nat) (now : String) (db : DB) (token : String) :
    Except String Int × DB :=
  match db.assignments.find? fun r => r.token == token with
  | some row => (Except.ok row.grp, db)
  | none =>
    if get_setting db "total" < 1 ∨ get_setting db "groups" < 1 then
      (Except.error "Ungültige Einstellungen (Teilnehmerzahl / Gruppen).", db)
    else
      match compute_capacities (get_setting db "total") (get_setting db "groups") with
      | none => (Except.error "ZeroDivisionError", db)
      | some caps =>
        match choose_group_fair k (get_counts db (get_setting db "groups")) caps with
        | none => (Except.error "IndexError", db)
        | some grp =>
          (Except.ok grp,
            { db with assignments := db.assignments ++ [⟨token, grp, now⟩] })

/-- `admin_save` from `main.py` (route `POST /admin/save`): stores both
values via `set_setting` and redirects; there is no validation and no
error path. -/
def admin_save (db : DB) (total groups : Int) : DB :=
  set_setting (set_setting db "total" total) "groups" groups

/-- Fast path of `assign_group`: an existing row for the token short-circuits
everything (settings are not even read). -/
lemma assign_group_found (k : Nat) (now : String) (db : DB) (t : String)
    (row : AssignmentRow)
    (h : (db.assignments.find? fun r => r.token == t) = some row) :
    assign_group k now db t = (Except.ok row.grp, db) := by
  simp only [assign_group, h]

/-- A successful call on a token with no existing row appends exactly one
row carrying the returned group. -/
lemma assign_group_fresh_ok (k : Nat) (now : String) (db : DB) (t : String)
    (g1 : Int) (db1 : DB)
    (hfind : (db.assignments.find? fun r => r.token == t) = none)
    (h : assign_group k now db t = (Except.ok g1, db1)) :
    db1 = { db with assignments := db.assignments ++ [⟨t, g1, now⟩] } := by
  simp only [assign_group, hfind] at h
  split at h
  · exact absurd (congrArg Prod.fst h) (by simp)
  · split at h
    · exact absurd (congrArg Prod.fst h) (by simp)
    · split at h
      · exact absurd (congrArg Prod.fst h) (by simp)
      · injection h with h1 h2
        injection h1 with h1
        rw [← h2, ← h1]

/-- C3: assignment is idempotent.  (1) If a row for the token exists,
`assign_group` returns its stored group and leaves the state unchanged,
whatever the settings are.  (2) After any successful call, a second call
returns the same group and the same state, and exactly one row for the
token exists (assuming the token-primary-key invariant, at most one row
beforehand). -/
theorem c3_assign_group_idempotent :
    (∀ (k : Nat) (now : String) (db : DB) (t : String) (row : AssignmentRow),
      (db.assignments.find? fun r => r.token == t) = some row →
      assign_group k now db t = (Except.ok row.grp, db)) ∧
    (∀ (k1 k2 : Nat) (now1 now2 : String) (db db1 : DB) (t : String) (g1 : Int),
      (db.assignments.filter fun r => r.token == t).length ≤ 1 →
      assign_group k1 now1 db t = (Except.ok g1, db1) →
      assign_group k2 now2 db1 t = (Except.ok g1, db1) ∧
      (db1.assignments.filter fun r => r.token == t).length = 1) := by
  constructor
  · exact assign_group_found
  · intro k1 k2 now1 now2 db db1 t g1 hkey h
    cases hfind : db.assignments.find? fun r => r.token == t with
    | some row =>
      have h1 := assign_group_found k1 now1 db t row hfind
      rw [h1] at h
      have hg : row.grp = g1 := by
        have := congrArg Prod.fst h
        simpa using this
      have hdb : db = db1 := congrArg Prod.snd h
      subst hdb
      refine ⟨by rw [assign_group_found k2 now2 db t row hfind, hg], ?_⟩
      have hp := List.find?_some hfind
      have hmem : row ∈ db.assignments.filter fun r => r.token == t :=
        List.mem_filter.mpr ⟨List.mem_of_find?_eq_some hfind, hp⟩
      have := List.length_pos.mpr (List.ne_nil_of_mem hmem)
      omega
    | none =>
      have hdb1 := assign_group_fresh_ok k1 now1 db t g1 db1 hfind h
      have hfilter : (db.assignments.filter fun r => r.token == t) = [] :=
        List.filter_eq_nil_iff.mpr (by
          intro r hr
          have := List.find?_eq_none.mp hfind r hr
          simpa using this)
      have hfind1 : (db1.assignments.find? fun r => r.token == t) =
          some ⟨t, g1, now1⟩ := by
        rw [hdb1]
        simp only [List.find?_append, hfind]
        simp
      refine ⟨?_, ?_⟩
      · rw [assign_group_found k2 now2 db1 t _ hfind1]
      · rw [hdb1]
        simp only [List.filter_append, hfilter]
        simp

/-- Witness for C3: the fast path on a stored row (with an empty — hence
invalid — settings table, showing settings are irrelevant there), and a
full fresh-then-repeat round trip under `total = 10`, `groups = 2`. -/
theorem c3_assign_group_idempotent_witness :
    (((DB.mk [⟨"alice", 2, "t0"⟩] []).assignments.find? fun r => r.token == "alice")
        = some ⟨"alice", 2, "t0"⟩) ∧
    assign_group 5 "t1" (DB.mk [⟨"alice", 2, "t0"⟩] []) "alice"
      = (Except.ok 2, DB.mk [⟨"alice", 2, "t0"⟩] []) ∧
    (assign_group 1 "t3" (DB.mk [⟨"bob", 1, "t2"⟩] [("total", 10), ("groups", 2)]) "bob"
        = (Except.ok 1, DB.mk [⟨"bob", 1, "t2"⟩] [("total", 10), ("groups", 2)]) ∧
      ((DB.mk [⟨"bob", 1, "t2"⟩] [("total", 10), ("groups", 2)]).assignments.filter
          fun r => r.token == "bob").length = 1) :=
  ⟨rfl,
    c3_assign_group_idempotent.1 5 "t1" _ "alice" ⟨"alice", 2, "t0"⟩ rfl,
    c3_assign_group_idempotent.2 0 1 "t2" "t3"
      (DB.mk [] [("total", 10), ("groups", 2)])
      (DB.mk [⟨"bob", 1, "t2"⟩] [("total", 10), ("groups", 2)]) "bob" 1
      (by decide) rfl⟩

/-- C4: a fresh token under invalid stored settings (`total < 1` or
`groups < 1`) makes `assign_group` fail with the Python `ValueError`
"Ungültige Einstellungen" — the engine's `InvalidConfiguration` — and the
returned state is the unchanged pre-transaction state: the rollback leaves
no row behind and consumes no slot. -/
theorem c4_invalid_settings_rollback (k : Nat) (now : String) (db : DB) (t : String)
    (hfind : (db.assignments.find? fun r => r.token == t) = none)
    (hbad : get_setting db "total" < 1 ∨ get_setting db "groups" < 1) :
    assign_group k now db t =
      (Except.error "Ungültige Einstellungen (Teilnehmerzahl / Gruppen).", db) := by
  simp only [assign_group, hfind, if_pos hbad]

/-- Witness for C4 at `total = 0`, `groups = 5`, fresh token "carol". -/
theorem c4_invalid_settings_rollback_witness :
    ((DB.mk [] [("total", 0), ("groups", 5)]).assignments.find?
        fun r => r.token == "carol") = none ∧
    (get_setting (DB.mk [] [("total", 0), ("groups", 5)]) "total" < 1 ∨
      get_setting (DB.mk [] [("total", 0), ("groups", 5)]) "groups" < 1) ∧
    assign_group 0 "t0" (DB.mk [] [("total", 0), ("groups", 5)]) "carol" =
      (Except.error "Ungültige Einstellungen (Teilnehmerzahl / Gruppen).",
        DB.mk [] [("total", 0), ("groups", 5)]) :=
  ⟨rfl, Or.inl (by decide),
    c4_invalid_settings_rollback 0 "t0" _ "carol" rfl (Or.inl (by decide))⟩

lemma find?_map_upsert (l : List (String × Int)) (key : String) (v : Int)
    (h : (l.any fun p => p.1 == key) = true) :
    ((l.map fun p => if p.1 == key then (key, v) else p).find? fun p => p.1 == key)
      = some (key, v) := by
  induction l with
  | nil => simp at h
  | cons a l ih =>
    by_cases ha : (a.1 == key) = true
    · rw [List.map_cons, if_pos ha,
        List.find?_cons_of_pos (p := fun (q : String × Int) => q.1 == key) _ (by simp)]
    · rw [List.map_cons, if_neg ha,
        List.find?_cons_of_neg (p := fun (q : String × Int) => q.1 == key) _ ha]
      apply ih
      simpa [ha] using h

lemma find?_append_upsert (l : List (String × Int)) (key : String) (v : Int)
    (h : (l.any fun p => p.1 == key) = false) :
    ((l ++ [(key, v)]).find? fun p => p.1 == key) = some (key, v) := by
  rw [List.find?_append]
  have hnone : (l.find? fun p => p.1 == key) = none := by
    rw [List.find?_eq_none]
    intro x hx
    simp only [List.any_eq_false] at h
    exact h x hx
  rw [hnone]
  simp

lemma find?_map_upsert_other (l : List (String × Int)) (key key2 : String) (v : Int)
    (hne : key ≠ key2) :
    ((l.map fun p => if p.1 == key then (key, v) else p).find? fun p => p.1 == key2)
      = l.find? fun p => p.1 == key2 := by
  induction l with
  | nil => rfl
  | cons a l ih =>
    by_cases ha : (a.1 == key) = true
    · rw [List.map_cons, if_pos ha]
      have ha' : a.1 = key := by simpa using ha
      have h2 : ¬ (((key, v) : String × Int).1 == key2) = true := by simp [hne]
      have h3 : ¬ (a.1 == key2) = true := by simp [ha', hne]
      rw [List.find?_cons_of_neg (p := fun (q : String × Int) => q.1 == key2) _ h2,
        List.find?_cons_of_neg (p := fun (q : String × Int) => q.1 == key2) _ h3]
      exact ih
    · rw [List.map_cons, if_neg ha]
      by_cases hk2 : (a.1 == key2) = true
      · rw [List.find?_cons_of_pos (p := fun (q : String × Int) => q.1 == key2) _ hk2,
          List.find?_cons_of_pos (p := fun (q : String × Int) => q.1 == key2) _ hk2]
      · rw [List.find?_cons_of_neg (p := fun (q : String × Int) => q.1 == key2) _ hk2,
          List.find?_cons_of_neg (p := fun (q : String × Int) => q.1 == key2) _ hk2]
        exact ih

/-- Reading back the key just upserted yields the new value. -/
lemma get_set_setting_same (db : DB) (key : String) (v : Int) :
    get_setting (set_setting db key v) key = v := by
  cases hany : db.settings.any fun p => p.1 == key with
  | true =>
    have hs : (set_setting db key v).settings
        = db.settings.map fun p => if p.1 == key then (key, v) else p := by
      simp [set_setting, hany]
    unfold get_setting
    rw [hs, find?_map_upsert db.settings key v hany]
  | false =>
    have hs : (set_setting db key v).settings = db.settings ++ [(key, v)] := by
      simp [set_setting, hany]
    unfold get_setting
    rw [hs, find?_append_upsert db.settings key v hany]

/-- Upserting one key leaves every other key's reading unchanged. -/
lemma get_set_setting_other (db : DB) (key key2 : String) (v : Int)
    (hne : key ≠ key2) :
    get_setting (set_setting db key v) key2 = get_setting db key2 := by
  cases hany : db.settings.any fun p => p.1 == key with
  | true =>
    have hs : (set_setting db key v).settings
        = db.settings.map fun p => if p.1 == key then (key, v) else p := by
      simp [set_setting, hany]
    unfold get_setting
    rw [hs, find?_map_upsert_other db.settings key key2 v hne]
  | false =>
    have hs : (set_setting db key v).settings = db.settings ++ [(key, v)] := by
      simp [set_setting, hany]
    unfold get_setting
    rw [hs, List.find?_append]
    have h1 : (([(key, v)] : List (String × Int)).find? fun p => p.1 == key2) = none := by
      simp [hne]
    rw [h1, Option.or_none]

/-- `set_setting` never touches the `assignments` table. -/
lemma set_setting_assignments (db : DB) (key : String) (v : Int) :
    (set_setting db key v).assignments = db.assignments := by
  unfold set_setting
  split <;> rfl

lemma admin_save_assignments (db : DB) (total groups : Int) :
    (admin_save db total groups).assignments = db.assignments := by
  unfold admin_save
  rw [set_setting_assignments, set_setting_assignments]

lemma admin_save_total (db : DB) (total groups : Int) :
    get_setting (admin_save db total groups) "total" = total := by
  unfold admin_save
  rw [get_set_setting_other _ "groups" "total" groups (by decide),
    get_set_setting_same]

lemma admin_save_groups (db : DB) (total groups : Int) :
    get_setting (admin_save db total groups) "groups" = groups := by
  unfold admin_save
  rw [get_set_setting_same]

/-- C8 counterexample: saving the invalid settings `total = 0`,
`groups = 0` through `admin_save` stores them — no `InvalidConfiguration`
error is returned (the route has no error path at all) and the invalid
values are afterwards read back from the store. -/
theorem c8_counterexample :
    get_setting (admin_save (DB.mk [] []) 0 0) "total" = 0 ∧
    get_setting (admin_save (DB.mk [] []) 0 0) "groups" = 0 := by decide

/-- C8 amended: the settings update (`admin_save` via `set_setting`)
performs no validation: it stores whatever `total` and `groups` it is
given — also values `< 1` — and never fails; invalid settings are only
rejected later, by `assign_group`.  Existing assignment rows are untouched. -/
theorem c8_amended_no_validation (db : DB) (total groups : Int) :
    get_setting (admin_save db total groups) "total" = total ∧
    get_setting (admin_save db total groups) "groups" = groups ∧
    (admin_save db total groups).assignments = db.assignments :=
  ⟨admin_save_total db total groups, admin_save_groups db total groups,
    admin_save_assignments db total groups⟩

lemma get_counts_length (db : DB) (g : Int) : (get_counts db g).length = g.toNat := by
  simp [get_counts]

/-- Success characterization of `assign_group` on a fresh token under valid
settings: exactly the one new row is appended, and the chosen 1-based group
number is in range and maximizes remaining capacity at decision time. -/
lemma assign_group_fresh_spec (k : Nat) (now : String) (db : DB) (t : String)
    (hfind : (db.assignments.find? fun r => r.token == t) = none)
    (hT : 1 ≤ get_setting db "total") (hG : 1 ≤ get_setting db "groups") :
    ∃ (grp : Int) (caps : List Int),
      compute_capacities (get_setting db "total") (get_setting db "groups") = some caps ∧
      assign_group k now db t =
        (Except.ok grp, { db with assignments := db.assignments ++ [⟨t, grp, now⟩] }) ∧
      1 ≤ grp ∧ grp ≤ get_setting db "groups" ∧
      (grp - 1).toNat < (get_setting db "groups").toNat ∧
      ∀ i, i < (get_setting db "groups").toNat →
        caps.getD i 0 - (get_counts db (get_setting db "groups")).getD i 0 ≤
          caps.getD (grp - 1).toNat 0 -
            (get_counts db (get_setting db "groups")).getD (grp - 1).toNat 0 := by
  set T := get_setting db "total" with hTdef
  set G := get_setting db "groups" with hGdef
  have hG0 : G ≠ 0 := by omega
  obtain ⟨caps, hcaps⟩ : ∃ caps, compute_capacities T G = some caps :=
    ⟨(List.range G.toNat).map fun (i : Nat) =>
        if (i : Int) < T.fmod G then T.fdiv G + 1 else T.fdiv G,
      by simp [compute_capacities, hG0]⟩
  have hlen : caps.length = G.toNat := compute_capacities_length T G caps hcaps
  have hclen : (get_counts db G).length = G.toNat := get_counts_length db G
  have hcapsne : caps ≠ [] := by
    intro h0
    rw [h0] at hlen
    simp only [List.length_nil] at hlen
    omega
  obtain ⟨idx, hres, hidx, hmax⟩ := choose_group_fair_spec k (get_counts db G) caps
    (by rw [hclen, hlen]) hcapsne
  rw [hlen] at hidx
  have hback : (((idx : Int) + 1) - 1).toNat = idx := by omega
  refine ⟨(idx : Int) + 1, caps, hcaps, ?_, by omega, by omega, ?_, ?_⟩
  · simp only [assign_group, hfind, ← hTdef, ← hGdef,
      if_neg (show ¬ (T < 1 ∨ G < 1) by omega), hcaps, hres]
  · rw [hback]
    exact hidx
  · intro i hi
    rw [hback]
    exact hmax i (by rw [hlen]; exact hi)

/-- C9: updating settings leaves every assignment row unchanged
(`set_setting` only touches the `settings` table); tokens already assigned
keep their stored group on any later call; and a fresh token after
`admin_save total groups` is assigned via the capacity vector recomputed
from the new settings, maximizing remaining capacity against it. -/
theorem c9_reconfiguration_frame :
    (∀ (db : DB) (key : String) (v : Int),
      (set_setting db key v).assignments = db.assignments) ∧
    (∀ (db : DB) (total groups : Int) (k : Nat) (now t : String)
        (row : AssignmentRow),
      ((admin_save db total groups).assignments.find? fun r => r.token == t)
          = some row →
      assign_group k now (admin_save db total groups) t =
        (Except.ok row.grp, admin_save db total groups)) ∧
    (∀ (db : DB) (total groups : Int) (k : Nat) (now t : String),
      1 ≤ total → 1 ≤ groups →
      ((admin_save db total groups).assignments.find? fun r => r.token == t)
          = none →
      ∃ (grp : Int) (caps : List Int),
        compute_capacities total groups = some caps ∧
        assign_group k now (admin_save db total groups) t =
          (Except.ok grp,
            { admin_save db total groups with
                assignments :=
                  (admin_save db total groups).assignments ++ [⟨t, grp, now⟩] }) ∧
        1 ≤ grp ∧ grp ≤ groups ∧
        ∀ i, i < groups.toNat →
          caps.getD i 0 - (get_counts (admin_save db total groups) groups).getD i 0 ≤
            caps.getD (grp - 1).toNat 0 -
              (get_counts (admin_save db total groups) groups).getD (grp - 1).toNat 0) := by
  refine ⟨set_setting_assignments, ?_, ?_⟩
  · intro db total groups k now t row hfind
    exact assign_group_found k now _ t row hfind
  · intro db total groups k now t hT hG hfind
    have h1 : get_setting (admin_save db total groups) "total" = total :=
      admin_save_total db total groups
    have h2 : get_setting (admin_save db total groups) "groups" = groups :=
      admin_save_groups db total groups
    obtain ⟨grp, caps, hcaps, hrun, hg1, hg2, _, hmax⟩ :=
      assign_group_fresh_spec k now (admin_save db total groups) t hfind
        (by rw [h1]; exact hT) (by rw [h2]; exact hG)
    rw [h1, h2] at hcaps
    rw [h2] at hg2 hmax
    exact ⟨grp, caps, hcaps, hrun, hg1, hg2, hmax⟩

/-- Concrete database for the C9 witness: one assigned token under old
settings `total = 5`, `groups = 7`. -/
def c9_db : DB := DB.mk [⟨"dave", 9, "t0"⟩] [("total", 5), ("groups", 7)]

/-- Witness for C9: after `admin_save c9_db 1000 3`, token "dave" keeps its
stored group 9 and fresh token "erin" is placed via the new 3-group
capacity vector. -/
theorem c9_reconfiguration_frame_witness :
    (((admin_save c9_db 1000 3).assignments.find? fun r => r.token == "dave")
        = some ⟨"dave", 9, "t0"⟩) ∧
    assign_group 0 "t1" (admin_save c9_db 1000 3) "dave"
      = (Except.ok 9, admin_save c9_db 1000 3) ∧
    (1 ≤ (1000 : Int)) ∧ (1 ≤ (3 : Int)) ∧
    (∃ (grp : Int) (caps : List Int),
      compute_capacities 1000 3 = some caps ∧
      assign_group 1 "t2" (admin_save c9_db 1000 3) "erin" =
        (Except.ok grp,
          { admin_save c9_db 1000 3 with
              assignments :=
                (admin_save c9_db 1000 3).assignments ++ [⟨"erin", grp, "t2"⟩] }) ∧
      1 ≤ grp ∧ grp ≤ 3 ∧
      ∀ i, i < (3 : Int).toNat →
        caps.getD i 0 - (get_counts (admin_save c9_db 1000 3) 3).getD i 0 ≤
          caps.getD (grp - 1).toNat 0 -
            (get_counts (admin_save c9_db 1000 3) 3).getD (grp - 1).toNat 0) :=
  ⟨rfl,
    c9_reconfiguration_frame.2.1 c9_db 1000 3 0 "t1" "dave" ⟨"dave", 9, "t0"⟩ rfl,
    by decide, by decide,
    c9_reconfiguration_frame.2.2 c9_db 1000 3 1 "t2" "erin" (by decide) (by decide) rfl⟩

lemma sum_map_range_add (n : Nat) (f h : Nat → Int) :
    ((List.range n).map fun i => f i + h i).sum
      = ((List.range n).map f).sum + ((List.range n).map h).sum := by
  induction n with
  | zero => simp
  | succ m ih =>
    rw [List.range_succ]
    simp only [List.map_append, List.sum_append, List.map_cons, List.map_nil,
      List.sum_cons, List.sum_nil, ih]
    ring

lemma sum_indicator_range_nat (n : Nat) (v : Int) :
    ((List.range n).map fun (i : Nat) => if v = (i : Int) + 1 then (1 : Int) else 0).sum
      = if 1 ≤ v ∧ v ≤ (n : Int) then 1 else 0 := by
  induction n with
  | zero =>
    simp only [List.range_zero, List.map_nil, List.sum_nil]
    rw [if_neg (by omega)]
  | succ m ih =>
    rw [List.range_succ, List.map_append, List.sum_append, ih]
    simp only [List.map_cons, List.map_nil, List.sum_cons, List.sum_nil, add_zero]
    split_ifs <;> omega

/-- Pointwise value of `get_counts`: entry `i` counts the rows with
`grp = i + 1`. -/
lemma get_counts_getD (db : DB) (g : Int) (i : Nat) (hi : i < g.toNat) :
    (get_counts db g).getD i 0
      = ((db.assignments.filter fun r => r.grp == (i : Int) + 1).length : Int) := by
  have hlen : i < (get_counts db g).length := by
    rw [get_counts_length]
    exact hi
  rw [List.getD_eq_getElem _ _ hlen]
  simp [get_counts]

/-- The entries of `get_counts` sum to the number of rows whose `grp` lies
in `[1, g]` — rows outside that band are not counted anywhere. -/
lemma get_counts_sum (rows : List AssignmentRow) (s : List (String × Int)) (g : Int)
    (hg : 0 ≤ g) :
    (get_counts (DB.mk rows s) g).sum
      = ((rows.filter fun r => decide (1 ≤ r.grp) && decide (r.grp ≤ g)).length : Int) := by
  induction rows with
  | nil => simp [get_counts]
  | cons a l ih =>
    have hdecomp : ∀ i ∈ List.range g.toNat,
        ((((a :: l).filter fun r => r.grp == (i : Int) + 1).length : Nat) : Int)
          = ((l.filter fun r => r.grp == (i : Int) + 1).length : Int)
            + (if a.grp = (i : Int) + 1 then 1 else 0) := by
      intro i _
      rw [List.filter_cons]
      by_cases hh : a.grp = (i : Int) + 1
      · simp [hh]
      · simp [hh]
    show ((List.range g.toNat).map fun (i : Nat) =>
        (((a :: l).filter fun r => r.grp == (i : Int) + 1).length : Int)).sum = _
    rw [List.map_congr_left hdecomp,
      sum_map_range_add g.toNat
        (fun i => ((l.filter fun r => r.grp == (i : Int) + 1).length : Int))
        (fun i => if a.grp = (i : Int) + 1 then 1 else 0)]
    have hfirst : ((List.range g.toNat).map fun (i : Nat) =>
        ((l.filter fun r => r.grp == (i : Int) + 1).length : Int)).sum
          = ((l.filter fun r => decide (1 ≤ r.grp) && decide (r.grp ≤ g)).length : Int) :=
      ih
    rw [hfirst, sum_indicator_range_nat]
    have hcast : ((g.toNat : Nat) : Int) = g := Int.toNat_of_nonneg hg
    rw [hcast, List.filter_cons]
    by_cases hin : 1 ≤ a.grp ∧ a.grp ≤ g
    · rw [if_pos hin]
      simp [hin.1, hin.2]
    · rw [if_neg hin]
      have : (decide (1 ≤ a.grp) && decide (a.grp ≤ g)) = false := by
        rcases not_and_or.mp hin with h | h <;> simp [h]
      simp [this]

/-- C10: for `g ≥ 1`, `get_counts` returns a length-`g` vector whose entry
`i` is the number of assignment rows with `grp = i + 1`; rows whose group
lies outside `[1, g]` are silently ignored (the entries sum to the number
of in-range rows only), so the sum can be strictly below the number of
assignment rows. -/
theorem c10_get_counts_spec :
    (∀ (db : DB) (g : Int), 1 ≤ g →
      (get_counts db g).length = g.toNat ∧
      (∀ i, i < g.toNat →
        (get_counts db g).getD i 0
          = ((db.assignments.filter fun r => r.grp == (i : Int) + 1).length : Int)) ∧
      (get_counts db g).sum
        = ((db.assignments.filter fun r =>
            decide (1 ≤ r.grp) && decide (r.grp ≤ g)).length : Int) ∧
      (get_counts db g).sum ≤ (db.assignments.length : Int)) ∧
    (∃ (db : DB) (g : Int), 1 ≤ g ∧
      (get_counts db g).sum < (db.assignments.length : Int)) := by
  constructor
  · intro db g hg
    obtain ⟨rows, s⟩ := db
    refine ⟨get_counts_length _ g, fun i hi => get_counts_getD _ g i hi, ?_, ?_⟩
    · exact get_counts_sum rows s g (by omega)
    · rw [get_counts_sum rows s g (by omega)]
      have := List.length_filter_le
        (fun r => decide (1 ≤ r.grp) && decide (r.grp ≤ g)) rows
      simp only
      exact_mod_cast this
  · exact ⟨DB.mk [⟨"x", 5, "t"⟩] [], 1, by decide, by decide⟩

/-- Witness for C10 at a database holding one out-of-range row (`grp = 5`)
and one in-range row, with `g = 1`. -/
theorem c10_get_counts_spec_witness :
    1 ≤ (1 : Int) ∧
    ((get_counts (DB.mk [⟨"x", 5, "t"⟩, ⟨"y", 1, "t"⟩] []) 1).length = (1 : Int).toNat ∧
      (∀ i, i < (1 : Int).toNat →
        (get_counts (DB.mk [⟨"x", 5, "t"⟩, ⟨"y", 1, "t"⟩] []) 1).getD i 0
          = (((DB.mk [⟨"x", 5, "t"⟩, ⟨"y", 1, "t"⟩] []).assignments.filter
              fun r => r.grp == (i : Int) + 1).length : Int)) ∧
      (get_counts (DB.mk [⟨"x", 5, "t"⟩, ⟨"y", 1, "t"⟩] []) 1).sum
        = (((DB.mk [⟨"x", 5, "t"⟩, ⟨"y", 1, "t"⟩] []).assignments.filter
            fun r => decide (1 ≤ r.grp) && decide (r.grp ≤ 1)).length : Int) ∧
      (get_counts (DB.mk [⟨"x", 5, "t"⟩, ⟨"y", 1, "t"⟩] []) 1).sum
        ≤ ((DB.mk [⟨"x", 5, "t"⟩, ⟨"y", 1, "t"⟩] []).assignments.length : Int)) :=
  ⟨by decide,
    c10_get_counts_spec.1 (DB.mk [⟨"x", 5, "t"⟩, ⟨"y", 1, "t"⟩] []) 1 (by decide)⟩

/-- One participant request of a run: the random draw fed to
`choose_group_fair`, the participant's cookie token, and the timestamp. -/
structure Req where
  k : Nat
  token : String
  now : String

/-- Serialized execution of `assign_group` for a list of requests — the
exclusive `BEGIN IMMEDIATE` transactions of `main.py` run one after the
other — threading the database state. -/
def run_assigns (db : DB) : List Req → DB
  | [] => db
  | q :: qs => run_assigns (assign_group q.k q.now db q.token).2 qs

/-- Did a call return `Except.ok`? -/
def except_ok : Except String Int → Bool
  | Except.ok _ => true
  | Except.error _ => false

/-- Every request of the run returned `Except.ok`. -/
def run_assigns_ok (db : DB) : List Req → Bool
  | [] => true
  | q :: qs =>
    except_ok (assign_group q.k q.now db q.token).1
      && run_assigns_ok (assign_group q.k q.now db q.token).2 qs

/-- Run invariant tying a database to fixed settings `T`, `G` with
capacity vector `caps`: the settings are stored, every row's group lies in
`[1, G]`, and the remaining capacities of any two groups differ by at
most 1. -/
structure EngineInv (T G : Int) (caps : List Int) (db : DB) : Prop where
  settings_total : get_setting db "total" = T
  settings_groups : get_setting db "groups" = G
  rows_in_range : ∀ r ∈ db.assignments, 1 ≤ r.grp ∧ r.grp ≤ G
  rem_spread : ∀ i < G.toNat, ∀ j < G.toNat,
    (caps.getD i 0 - (get_counts db G).getD i 0)
      - (caps.getD j 0 - (get_counts db G).getD j 0) ≤ 1

lemma getD_set_self (L : List Int) (j : Nat) (v : Int) (h : j < L.length) :
    (L.set j v).getD j 0 = v := by
  rw [List.getD_eq_getElem _ _ (by rw [List.length_set]; exact h), List.getElem_set]
  simp

lemma getD_set_ne (L : List Int) (j i : Nat) (v : Int) (hne : j ≠ i) :
    (L.set j v).getD i 0 = L.getD i 0 := by
  by_cases hi : i < L.length
  · rw [List.getD_eq_getElem _ _ (by rw [List.length_set]; exact hi),
      List.getElem_set, if_neg hne, List.getD_eq_getElem _ _ hi]
  · rw [List.getD_eq_default _ _ (by rw [List.length_set]; omega),
      List.getD_eq_default _ _ (by omega)]

/-- Appending one in-range row increments exactly the row's group entry of
the count vector. -/
lemma get_counts_append_row (db : DB) (g : Int) (t2 : String) (gr : Int) (ts : String)
    (h1 : 1 ≤ gr) (h2 : gr ≤ g) :
    get_counts { db with assignments := db.assignments ++ [⟨t2, gr, ts⟩] } g
      = (get_counts db g).set (gr - 1).toNat
          ((get_counts db g).getD (gr - 1).toNat 0 + 1) := by
  apply List.ext_getElem
  · rw [List.length_set, get_counts_length, get_counts_length]
  · intro i hL hR
    have hiL : i < g.toNat := by
      rw [get_counts_length] at hL
      exact hL
    have e1 : (get_counts { db with assignments := db.assignments ++ [⟨t2, gr, ts⟩] } g)[i]
        = (((db.assignments ++ [(⟨t2, gr, ts⟩ : AssignmentRow)]).filter
            fun row => row.grp == (i : Int) + 1).length : Int) := by
      rw [← List.getD_eq_getElem _ 0 hL]
      exact get_counts_getD _ g i hiL
    have e2 : (get_counts db g).getD i 0
        = ((db.assignments.filter fun row => row.grp == (i : Int) + 1).length : Int) :=
      get_counts_getD db g i hiL
    rw [e1, List.getElem_set, List.filter_append]
    by_cases he : (gr - 1).toNat = i
    · rw [if_pos he, he]
      have hgr : gr = (i : Int) + 1 := by omega
      have hfr : (([(⟨t2, gr, ts⟩ : AssignmentRow)]).filter
          fun row => row.grp == (i : Int) + 1) = [⟨t2, gr, ts⟩] := by
        simp [hgr]
      rw [hfr, e2, List.length_append]
      push_cast
      simp
    · rw [if_neg he]
      have hgr : gr ≠ (i : Int) + 1 := by omega
      have hfr : (([(⟨t2, gr, ts⟩ : AssignmentRow)]).filter
          fun row => row.grp == (i : Int) + 1) = [] := by
        simp [hgr]
      rw [hfr, List.append_nil, ← e2,
        List.getD_eq_getElem _ _ (by rw [get_counts_length]; exact hiL)]

/-- One fresh assignment under the invariant: it succeeds, appends exactly
its row, and preserves the invariant (the remaining-capacity spread stays
within 1 because the chosen group maximizes remaining capacity). -/
lemma assign_step (T G : Int) (caps : List Int) (hT : 1 ≤ T) (hG : 1 ≤ G)
    (hcaps : compute_capacities T G = some caps)
    (db : DB) (inv : EngineInv T G caps db) (k : Nat) (now t : String)
    (hfresh : ∀ r ∈ db.assignments, r.token ≠ t) :
    ∃ grp : Int,
      assign_group k now db t =
        (Except.ok grp, { db with assignments := db.assignments ++ [⟨t, grp, now⟩] }) ∧
      EngineInv T G caps { db with assignments := db.assignments ++ [⟨t, grp, now⟩] } := by
  have hfind : (db.assignments.find? fun r => r.token == t) = none := by
    rw [List.find?_eq_none]
    intro r hr
    simpa using hfresh r hr
  obtain ⟨grp, caps', hcaps', hrun, hg1, hg2, hg3, hmax⟩ :=
    assign_group_fresh_spec k now db t hfind
      (by rw [inv.settings_total]; exact hT) (by rw [inv.settings_groups]; exact hG)
  rw [inv.settings_total, inv.settings_groups] at hcaps'
  rw [hcaps] at hcaps'
  obtain rfl : caps' = caps := by
    injection hcaps' with h
    exact h.symm
  rw [inv.settings_groups] at hg2 hg3 hmax
  refine ⟨grp, hrun, ?_, ?_, ?_, ?_⟩
  · exact inv.settings_total
  · exact inv.settings_groups
  · intro r hr
    rcases List.mem_append.mp hr with h | h
    · exact inv.rows_in_range r h
    · have heq : r = ⟨t, grp, now⟩ := by simpa using h
      rw [heq]
      exact ⟨hg1, hg2⟩
  · intro i hi j hj
    rw [get_counts_append_row db G t grp now hg1 hg2]
    have hlen : (get_counts db G).length = G.toNat := get_counts_length db G
    have hj0 : (grp - 1).toNat < (get_counts db G).length := by omega
    by_cases e1 : (grp - 1).toNat = i
    · by_cases e2 : (grp - 1).toNat = j
      · rw [← e1, ← e2, getD_set_self _ _ _ hj0]
        omega
      · rw [← e1, getD_set_self _ _ _ hj0, getD_set_ne _ _ _ _ e2]
        have hsp := inv.rem_spread (grp - 1).toNat (by omega) j hj
        omega
    · by_cases e2 : (grp - 1).toNat = j
      · rw [← e2, getD_set_ne _ _ _ _ e1, getD_set_self _ _ _ hj0]
        have hm := hmax i hi
        omega
      · rw [getD_set_ne _ _ _ _ e1, getD_set_ne _ _ _ _ e2]
        exact inv.rem_spread i hi j hj

/-- Induction along a list of requests with pairwise-distinct tokens, all
fresh for the initial database: every call succeeds, the invariant holds
at the end, and the row count grows by the number of requests. -/
lemma run_assigns_spec (T G : Int) (caps : List Int) (hT : 1 ≤ T) (hG : 1 ≤ G)
    (hcaps : compute_capacities T G = some caps) :
    ∀ (qs : List Req) (db : DB), EngineInv T G caps db →
      (∀ q ∈ qs, ∀ r ∈ db.assignments, r.token ≠ q.token) →
      (qs.map Req.token).Nodup →
      run_assigns_ok db qs = true ∧
      EngineInv T G caps (run_assigns db qs) ∧
      (run_assigns db qs).assignments.length = db.assignments.length + qs.length := by
  intro qs
  induction qs with
  | nil =>
    intro db hinv _ _
    exact ⟨rfl, hinv, by simp [run_assigns]⟩
  | cons q qs ih =>
    intro db hinv hfresh hnodup
    obtain ⟨grp, hrun, hinv'⟩ :=
      assign_step T G caps hT hG hcaps db hinv q.k q.now q.token
        (fun r hr => hfresh q (List.mem_cons_self q qs) r hr)
    rw [List.map_cons, List.nodup_cons] at hnodup
    obtain ⟨hnotin, hnodup'⟩ := hnodup
    have hfresh' : ∀ q2 ∈ qs,
        ∀ r ∈ ({ db with assignments := db.assignments ++ [⟨q.token, grp, q.now⟩] }
          : DB).assignments, r.token ≠ q2.token := by
      intro q2 hq2 r hr
      rcases List.mem_append.mp hr with hold | hnew
      · exact hfresh q2 (List.mem_cons_of_mem q hq2) r hold
      · have heq : r = ⟨q.token, grp, q.now⟩ := by simpa using hnew
        subst heq
        show q.token ≠ q2.token
        intro hcontra
        exact hnotin (by rw [hcontra]; exact List.mem_map_of_mem Req.token hq2)
    obtain ⟨hok, hinvf, hlenf⟩ := ih _ hinv' hfresh' hnodup'
    refine ⟨?_, ?_, ?_⟩
    · show (except_ok (assign_group q.k q.now db q.token).1
        && run_assigns_ok (assign_group q.k q.now db q.token).2 qs) = true
      rw [hrun]
      simpa [except_ok] using hok
    · show EngineInv T G caps (run_assigns (assign_group q.k q.now db q.token).2 qs)
      rw [hrun]
      exact hinvf
    · show (run_assigns (assign_group q.k q.now db q.token).2 qs).assignments.length
        = db.assignments.length + (q :: qs).length
      rw [hrun, hlenf]
      have hlen2 : ({ db with assignments := db.assignments ++ [⟨q.token, grp, q.now⟩] }
          : DB).assignments.length = db.assignments.length + 1 := by simp
      rw [hlen2, List.length_cons]
      omega

lemma int_list_sum_nonpos (l : List Int) (h : ∀ x ∈ l, x ≤ 0) : l.sum ≤ 0 := by
  induction l with
  | nil => simp
  | cons a l ih =>
    simp only [List.sum_cons]
    have h1 := h a (List.mem_cons_self a l)
    have h2 := ih fun x hx => h x (List.mem_cons_of_mem a hx)
    omega

lemma sum_le_neg_one (L : List Int) (h0 : ∀ x ∈ L, x ≤ 0) (i0 : Nat)
    (hi0 : i0 < L.length) (hneg : L.getD i0 0 ≤ -1) : L.sum ≤ -1 := by
  have hdecomp : L = L.take i0 ++ L.drop i0 := (List.take_append_drop i0 L).symm
  have hdrop : L.drop i0 = L[i0] :: L.drop (i0 + 1) := (List.getElem_cons_drop L i0 hi0).symm
  have hsum : L.sum = (L.take i0).sum + (L[i0] + (L.drop (i0 + 1)).sum) := by
    conv_lhs => rw [hdecomp]
    rw [List.sum_append, hdrop, List.sum_cons]
  have h1 : (L.take i0).sum ≤ 0 :=
    int_list_sum_nonpos _ fun x hx => h0 x (List.mem_of_mem_take hx)
  have h2 : (L.drop (i0 + 1)).sum ≤ 0 :=
    int_list_sum_nonpos _ fun x hx => h0 x (List.mem_of_mem_drop hx)
  have h3 : L[i0] ≤ -1 := by
    rw [← List.getD_eq_getElem _ 0 hi0]
    exact hneg
  omega

lemma remaining_of_eq_zipWith (counts caps : List Int)
    (hlen : counts.length = caps.length) :
    remaining_of counts caps = List.zipWith (fun a b => a - b) caps counts := by
  apply List.ext_getElem
  · rw [remaining_of_length, List.length_zipWith]
    omega
  · intro i h1 h2
    rw [remaining_of_getElem _ _ i h1, List.getElem_zipWith]
    have hi : i < caps.length := by
      rw [remaining_of_length] at h1
      exact h1
    rw [List.getD_eq_getElem _ _ hi, List.getD_eq_getElem _ _ (by omega : i < counts.length)]

lemma zipWith_sub_sum : ∀ (A B : List Int), A.length = B.length →
    (List.zipWith (fun a b => a - b) A B).sum = A.sum - B.sum := by
  intro A
  induction A with
  | nil =>
    intro B h
    have hB : B = [] := List.eq_nil_of_length_eq_zero h.symm
    subst hB
    simp
  | cons a A ih =>
    intro B h
    cases B with
    | nil => simp at h
    | cons b B =>
      simp only [List.zipWith_cons_cons, List.sum_cons]
      rw [ih B (by simpa using h)]
      ring

lemma remaining_of_sum (counts caps : List Int) (hlen : counts.length = caps.length) :
    (remaining_of counts caps).sum = caps.sum - counts.sum := by
  rw [remaining_of_eq_zipWith counts caps hlen, zipWith_sub_sum caps counts hlen.symm]

/-- When every row's group is in range, the count vector sums to the number
of rows. -/
lemma inv_counts_sum (db : DB) (G : Int) (hG : 0 ≤ G)
    (hrange : ∀ r ∈ db.assignments, 1 ≤ r.grp ∧ r.grp ≤ G) :
    (get_counts db G).sum = (db.assignments.length : Int) := by
  obtain ⟨rows, s⟩ := db
  rw [get_counts_sum rows s G hG]
  have hall : (rows.filter fun r => decide (1 ≤ r.grp) && decide (r.grp ≤ G)) = rows :=
    List.filter_eq_self.mpr (by
      intro r hr
      have hb := hrange r hr
      simp [hb.1, hb.2])
  rw [hall]

/-- Under the invariant, as long as no more rows exist than `T`, no group's
count exceeds its capacity. -/
lemma inv_counts_le_caps (T G : Int) (caps : List Int) (hG : 1 ≤ G)
    (hcaps : compute_capacities T G = some caps) (db : DB)
    (inv : EngineInv T G caps db)
    (hN : (db.assignments.length : Int) ≤ T) :
    ∀ i < G.toNat, (get_counts db G).getD i 0 ≤ caps.getD i 0 := by
  by_contra hcon
  push_neg at hcon
  obtain ⟨i0, hi0, hgt⟩ := hcon
  have hcapslen : caps.length = G.toNat := compute_capacities_length T G caps hcaps
  have hcntlen : (get_counts db G).length = G.toNat := get_counts_length db G
  have hRlen : (remaining_of (get_counts db G) caps).length = G.toNat := by
    rw [remaining_of_length, hcapslen]
  have hRentry : ∀ i, i < G.toNat →
      (remaining_of (get_counts db G) caps).getD i 0
        = caps.getD i 0 - (get_counts db G).getD i 0 := by
    intro i hi
    rw [List.getD_eq_getElem _ _ (by omega : i < (remaining_of (get_counts db G) caps).length),
      remaining_of_getElem]
  have hneg : (remaining_of (get_counts db G) caps).getD i0 0 ≤ -1 := by
    rw [hRentry i0 hi0]
    omega
  have hall : ∀ x ∈ remaining_of (get_counts db G) caps, x ≤ 0 := by
    intro x hx
    obtain ⟨i, hi, hv⟩ := List.mem_iff_getElem.mp hx
    have hi' : i < G.toNat := by omega
    have hx' : x = caps.getD i 0 - (get_counts db G).getD i 0 := by
      rw [← hv, ← List.getD_eq_getElem _ 0 hi, hRentry i hi']
    have hsp := inv.rem_spread i hi' i0 hi0
    omega
  have hsumle := sum_le_neg_one _ hall i0 (by omega) hneg
  have hsum : (remaining_of (get_counts db G) caps).sum
      = caps.sum - (get_counts db G).sum := by
    rw [remaining_of_sum]
    rw [hcntlen, hcapslen]
  have hcsum : caps.sum = T := compute_capacities_sum T G hG caps hcaps
  have hcnts : (get_counts db G).sum = (db.assignments.length : Int) :=
    inv_counts_sum db G (by omega) inv.rows_in_range
  omega

/-- Under the invariant, any two group counts differ by at most 2
(capacity skew ≤ 1 plus remaining-capacity spread ≤ 1). -/
lemma inv_counts_spread (T G : Int) (caps : List Int)
    (hcaps : compute_capacities T G = some caps) (db : DB)
    (inv : EngineInv T G caps db) :
    ∀ i < G.toNat, ∀ j < G.toNat,
      (get_counts db G).getD i 0 - (get_counts db G).getD j 0 ≤ 2 := by
  intro i hi j hj
  have hcapslen : caps.length = G.toNat := compute_capacities_length T G caps hcaps
  have hsp := inv.rem_spread j hj i hi
  have hmi : caps.getD i 0 ∈ caps := by
    rw [List.getD_eq_getElem _ _ (by omega : i < caps.length)]
    exact List.getElem_mem _
  have hmj : caps.getD j 0 ∈ caps := by
    rw [List.getD_eq_getElem _ _ (by omega : j < caps.length)]
    exact List.getElem_mem _
  have hskew := compute_capacities_skew T G caps hcaps _ hmi _ hmj
  omega

/-- Initial database of the C6 scenario: no assignments, settings
`total = 1000`, `groups = 7`. -/
def c6_db : DB := DB.mk [] [("total", 1000), ("groups", 7)]

/-- Seven requests with distinct tokens whose draws (`k = 0` throughout)
route the first six participants to groups 1–6 and the seventh — when all
remaining capacities are tied at 142 — back to group 1. -/
def c6_reqs : List Req :=
  [⟨0, "p1", "s"⟩, ⟨0, "p2", "s"⟩, ⟨0, "p3", "s"⟩, ⟨0, "p4", "s"⟩,
    ⟨0, "p5", "s"⟩, ⟨0, "p6", "s"⟩, ⟨0, "p7", "s"⟩]

/-- C6 counterexample: from empty state with `total = 1000`, `groups = 7`,
assigning the 7 distinct tokens of `c6_reqs` (an admissible sequence of
random tie-break draws) yields counts `[2, 1, 1, 1, 1, 1, 0]` — groups 1
and 7 differ by 2, refuting "per-group counts differ by at most 1". -/
theorem c6_counterexample :
    (c6_reqs.map Req.token).Nodup ∧ c6_reqs.length ≤ 1000 ∧
    get_counts (run_assigns c6_db c6_reqs) 7 = [2, 1, 1, 1, 1, 1, 0] ∧
    ¬ (∀ i < (7 : Int).toNat, ∀ j < (7 : Int).toNat,
        (get_counts (run_assigns c6_db c6_reqs) 7).getD i 0
          - (get_counts (run_assigns c6_db c6_reqs) 7).getD j 0 ≤ 1) := by
  decide

/-- C6 amended: from empty state with `total = 1000`, `groups = 7`, for any
number `N ≤ 1000` of distinct tokens and every sequence of random
tie-break draws, all assignments succeed, the per-group counts differ by
at most 2 (not 1: capacity skew 1 plus remaining-spread 1, and 2 is
attained), and no group's count exceeds its capacity. -/
theorem c6_amended_balance (qs : List Req)
    (hnodup : (qs.map Req.token).Nodup) (hlen : qs.length ≤ 1000) :
    run_assigns_ok c6_db qs = true ∧
    ∃ caps, compute_capacities 1000 7 = some caps ∧
      (∀ i < (7 : Int).toNat, ∀ j < (7 : Int).toNat,
        (get_counts (run_assigns c6_db qs) 7).getD i 0
          - (get_counts (run_assigns c6_db qs) 7).getD j 0 ≤ 2) ∧
      (∀ i < (7 : Int).toNat,
        (get_counts (run_assigns c6_db qs) 7).getD i 0 ≤ caps.getD i 0) := by
  have hcaps : compute_capacities 1000 7
      = some [143, 143, 143, 143, 143, 143, 142] := by decide
  have hinv0 : EngineInv 1000 7 [143, 143, 143, 143, 143, 143, 142] c6_db :=
    ⟨by decide, by decide, by decide, by decide⟩
  obtain ⟨hok, hinvf, hlenf⟩ :=
    run_assigns_spec 1000 7 _ (by decide) (by decide) hcaps qs c6_db hinv0
      (fun q hq r hr => absurd hr (by simp [c6_db])) hnodup
  refine ⟨hok, [143, 143, 143, 143, 143, 143, 142], hcaps, ?_, ?_⟩
  · exact fun i hi j hj => inv_counts_spread 1000 7 _ hcaps _ hinvf i hi j hj
  · apply inv_counts_le_caps 1000 7 _ (by decide) hcaps _ hinvf
    rw [hlenf]
    have h0 : c6_db.assignments.length = 0 := rfl
    rw [h0]
    omega

/-- Witness for amended C6 at the concrete 7-request run `c6_reqs`. -/
theorem c6_amended_balance_witness :
    (c6_reqs.map Req.token).Nodup ∧ c6_reqs.length ≤ 1000 ∧
    (run_assigns_ok c6_db c6_reqs = true ∧
      ∃ caps, compute_capacities 1000 7 = some caps ∧
        (∀ i < (7 : Int).toNat, ∀ j < (7 : Int).toNat,
          (get_counts (run_assigns c6_db c6_reqs) 7).getD i 0
            - (get_counts (run_assigns c6_db c6_reqs) 7).getD j 0 ≤ 2) ∧
        (∀ i < (7 : Int).toNat,
          (get_counts (run_assigns c6_db c6_reqs) 7).getD i 0 ≤ caps.getD i 0)) :=
  ⟨by decide, by decide, c6_amended_balance c6_reqs (by decide) (by decide)⟩

/-- Initial database of the C7 scenario: no assignments, settings
`total = 10`, `groups = 2` (capacities 5/5). -/
def c7_db : DB := DB.mk [] [("total", 10), ("groups", 2)]

/-- C7: from empty state with `total = 10`, `groups = 2`, assigning 12
distinct tokens succeeds for all 12 — overbooking never blocks — and for
every sequence of random tie-break draws the final counts sum to 12 and
are exactly 6/6 (never 7/5). -/
theorem c7_overbooking_continuation (qs : List Req)
    (hnodup : (qs.map Req.token).Nodup) (hlen : qs.length = 12) :
    run_assigns_ok c7_db qs = true ∧
    (get_counts (run_assigns c7_db qs) 2).sum = 12 ∧
    get_counts (run_assigns c7_db qs) 2 = [6, 6] := by
  have hcaps : compute_capacities 10 2 = some [5, 5] := by decide
  have hinv0 : EngineInv 10 2 [5, 5] c7_db :=
    ⟨by decide, by decide, by decide, by decide⟩
  obtain ⟨hok, hinvf, hlenf⟩ :=
    run_assigns_spec 10 2 _ (by decide) (by decide) hcaps qs c7_db hinv0
      (fun q hq r hr => absurd hr (by simp [c7_db])) hnodup
  have hsum : (get_counts (run_assigns c7_db qs) 2).sum
      = ((run_assigns c7_db qs).assignments.length : Int) :=
    inv_counts_sum _ 2 (by decide) hinvf.rows_in_range
  have hlen2 : (run_assigns c7_db qs).assignments.length = 12 := by
    rw [hlenf, hlen]
    rfl
  have hs12 : (get_counts (run_assigns c7_db qs) 2).sum = 12 := by
    rw [hsum, hlen2]
    rfl
  refine ⟨hok, hs12, ?_⟩
  have hclen : (get_counts (run_assigns c7_db qs) 2).length = 2 := by
    rw [get_counts_length]
    rfl
  obtain ⟨a, b, hab⟩ := List.length_eq_two.mp hclen
  have hsp1 := hinvf.rem_spread 0 (by decide) 1 (by decide)
  have hsp2 := hinvf.rem_spread 1 (by decide) 0 (by decide)
  rw [hab] at hsp1 hsp2 hs12
  have ea : ([a, b] : List Int).getD 0 0 = a := rfl
  have eb : ([a, b] : List Int).getD 1 0 = b := rfl
  have e5a : ([5, 5] : List Int).getD 0 0 = 5 := rfl
  have e5b : ([5, 5] : List Int).getD 1 0 = 5 := rfl
  rw [ea, eb, e5a, e5b] at hsp1 hsp2
  have hsum2 : a + b = 12 := by simpa using hs12
  have hfin : a = 6 ∧ b = 6 := by omega
  rw [hab, hfin.1, hfin.2]

/-- Twelve requests with pairwise distinct tokens for the C7 witness. -/
def c7_reqs : List Req :=
  [⟨0, "a01", "s"⟩, ⟨1, "a02", "s"⟩, ⟨2, "a03", "s"⟩, ⟨3, "a04", "s"⟩,
    ⟨0, "a05", "s"⟩, ⟨1, "a06", "s"⟩, ⟨2, "a07", "s"⟩, ⟨3, "a08", "s"⟩,
    ⟨0, "a09", "s"⟩, ⟨1, "a10", "s"⟩, ⟨2, "a11", "s"⟩, ⟨3, "a12", "s"⟩]

/-- Witness for C7 at the concrete 12-request run `c7_reqs`. -/
theorem c7_overbooking_continuation_witness :
    (c7_reqs.map Req.token).Nodup ∧ c7_reqs.length = 12 ∧
    (run_assigns_ok c7_db c7_reqs = true ∧
      (get_counts (run_assigns c7_db c7_reqs) 2).sum = 12 ∧
      get_counts (run_assigns c7_db c7_reqs) 2 = [6, 6]) :=
  ⟨by decide, by decide, c7_overbooking_continuation c7_reqs (by decide) (by decide)⟩
